import Mathlib

/-!
# Verification of the MIRAX index-file reader

A shallow embedding of `src/mirax/miraxfile.py` (the binary index parser of
a MIRAX whole-slide-image container) together with proofs of the claimed
properties of its page-chain loader, record codec, header validation,
dimension-pointer resolution, payload normalization, coordinate decoding and
grid mapping.

Bytes are modelled as natural numbers, a Python binary file object as a
`ByteStream` (immutable data plus a read cursor).  `fp.read(n)` clamps at
end-of-data exactly as Python does, and `int.from_bytes` of a short or empty
read is modelled faithfully by `fromBytesLE` on the short list.
-/

namespace Mirax

/-- Python `int.from_bytes(bs, byteorder="little")`: little-endian base-256
value of a byte list.  Defined for lists of any length, including the empty
list (which decodes to 0), exactly as Python's `int.from_bytes`. -/
def fromBytesLE : List Nat → Nat
  | [] => 0
  | b :: bs => b + 256 * fromBytesLE bs

/-- Python `int.from_bytes(bs, byteorder="little", signed=True)`:
two's-complement signed value of a byte list (0 for the empty list). -/
def fromBytesLESigned (bs : List Nat) : Int :=
  if fromBytesLE bs < 2 ^ (8 * bs.length - 1) then (fromBytesLE bs : Int)
  else (fromBytesLE bs : Int) - 2 ^ (8 * bs.length)

/-- Little-endian encoding of `n` into `w` bytes (used only to build
synthetic on-disk images for the round-trip statements). -/
def toBytesLE : Nat → Nat → List Nat
  | _, 0 => []
  | n, w + 1 => n % 256 :: toBytesLE (n / 256) w

/-- A Python binary file object: the file contents plus the read cursor. -/
structure ByteStream where
  data : List Nat
  pos : Nat
deriving DecidableEq, Repr

/-- Python `fp.read(n)`: returns up to `n` bytes starting at the cursor
(clamped at end-of-data, possibly empty) and advances the cursor by the
number of bytes actually read. -/
def ByteStream.read (s : ByteStream) (n : Nat) : List Nat × ByteStream :=
  let bs := (s.data.drop s.pos).take n
  (bs, ⟨s.data, s.pos + bs.length⟩)

/-- Python `fp.seek(p)`: moves the cursor (seeking past end-of-data is
allowed, as for a Python file). -/
def ByteStream.seek (s : ByteStream) (p : Nat) : ByteStream :=
  ⟨s.data, p⟩

/-- `int.from_bytes(fp.read(4), byteorder="little")`, the idiom used
throughout `miraxfile.py` for every u32 field. -/
def readU32 (s : ByteStream) : Nat × ByteStream :=
  let r := s.read 4
  (fromBytesLE r.1, r.2)

/-! ## Basic lemmas about the byte primitives -/

theorem toBytesLE_length (n w : Nat) : (toBytesLE n w).length = w := by
  induction w generalizing n with
  | zero => rfl
  | succ w ih => simp [toBytesLE, ih]

theorem fromBytesLE_toBytesLE (n w : Nat) (h : n < 256 ^ w) :
    fromBytesLE (toBytesLE n w) = n := by
  induction w generalizing n with
  | zero =>
    interval_cases n
    rfl
  | succ w ih =>
    have hdiv : n / 256 < 256 ^ w := by
      rw [Nat.div_lt_iff_lt_mul (by norm_num)]
      calc n < 256 ^ (w + 1) := h
        _ = 256 ^ w * 256 := by ring
    simp only [toBytesLE, fromBytesLE, ih (n / 256) hdiv]
    omega

/-- A `read` that finds exactly the bytes it asks for. -/
theorem ByteStream.read_exact (s : ByteStream) {xs rest : List Nat}
    (h : s.data.drop s.pos = xs ++ rest) :
    s.read xs.length = (xs, ⟨s.data, s.pos + xs.length⟩) := by
  simp only [ByteStream.read, h]
  rw [List.take_left]

/-- Dropping past bytes already accounted for. -/
theorem drop_pos_add (s : ByteStream) {xs rest : List Nat}
    (h : s.data.drop s.pos = xs ++ rest) :
    s.data.drop (s.pos + xs.length) = rest := by
  rw [← List.drop_drop, h, List.drop_left]

theorem readU32_exact (s : ByteStream) {v : Nat} {rest : List Nat}
    (h : s.data.drop s.pos = toBytesLE v 4 ++ rest) (hv : v < 2 ^ 32) :
    readU32 s = (v, ⟨s.data, s.pos + 4⟩) := by
  have hl : (toBytesLE v 4).length = 4 := toBytesLE_length v 4
  have hr := s.read_exact h
  rw [hl] at hr
  simp only [readU32, hr]
  rw [fromBytesLE_toBytesLE v 4 (by norm_num at hv ⊢; omega)]

/-! ## Data model (`PageEntry`, `Hierarchical` dataclasses) -/

/-- The `PageEntry` dataclass of `miraxfile.py`: one tile record. -/
structure PageEntry where
  tile_index : Nat
  offset : Nat
  length : Nat
  file_number : Nat
deriving DecidableEq, Repr

/-- The `Hierarchical` dataclass of `miraxfile.py`: one named dimension
value, with its resolved pointer and page chain (absent = `none`). -/
structure Hierarchical where
  name : String
  value : String
  pages : Option (List (List PageEntry))
  pointer : Option Nat
deriving DecidableEq, Repr

/-! ## `loadpages`: the page-chain loader (`miraxfile.py` lines 28-59) -/

/-- The hierarchical branch of the record loop in `loadpages`: four
sequential u32 LE reads filling `tile_index, offset, length, file_number`. -/
def readHierEntry (s : ByteStream) : PageEntry × ByteStream :=
  let r1 := readU32 s
  let r2 := readU32 r1.2
  let r3 := readU32 r2.2
  let r4 := readU32 r3.2
  (⟨r1.1, r2.1, r3.1, r4.1⟩, r4.2)

/-- The non-hierarchical branch of the record loop in `loadpages`: two
discarded 4-byte reads, then three u32 LE reads filling
`offset, length, file_number`; `tile_index` is set to 0. -/
def readNonHierEntry (s : ByteStream) : PageEntry × ByteStream :=
  let r0 := s.read 4
  let r0b := r0.2.read 4
  let r1 := readU32 r0b.2
  let r2 := readU32 r1.2
  let r3 := readU32 r2.2
  (⟨0, r1.1, r2.1, r3.1⟩, r3.2)

/-- The `for _ in range(n_entries)` loop body of `loadpages`, selecting the
record shape by the `ishierarchical` flag. -/
def readEntries (ishierarchical : Bool) : Nat → ByteStream → List PageEntry × ByteStream
  | 0, s => ([], s)
  | n + 1, s =>
    let r := if ishierarchical then readHierEntry s else readNonHierEntry s
    let rs := readEntries ishierarchical n r.2
    (r.1 :: rs.1, rs.2)

/-- `loadpages(fp, ishierarchical)`: reads `n_entries` and `nextpg` (u32 LE
each), decodes `n_entries` records, appends the page, and repeats at
`nextpg` until `nextpg == 0`.  The Python `while` loop has no bound, so the
embedding takes explicit fuel: `none` means the fuel ran out before the
chain terminated; `some pages` is the value the Python function returns. -/
def loadpages (ishierarchical : Bool) : Nat → ByteStream → Option (List (List PageEntry))
  | 0, _ => none
  | fuel + 1, s =>
    let rn := readU32 s
    let rp := readU32 rn.2
    let re := readEntries ishierarchical rn.1 rp.2
    if rp.1 = 0 then
      some [re.1]
    else
      match loadpages ishierarchical fuel (re.2.seek rp.1) with
      | none => none
      | some pages => some (re.1 :: pages)

/-! ## `MiraxFile.__readindex` (`miraxfile.py` lines 108-142) -/

/-- The header portion of `MiraxFile.__readindex` (lines 111-124): read the
version string (length of the expected one) and warn on mismatch; read the
identifier string and `assert` equality (mismatch aborts); then read the two
u32 LE root offsets.  The result carries the warning flag, `hier_root`,
`nonhier_root` and the advanced stream; `Except.error` is the
`AssertionError` raised when the identifier differs.  Strings are compared
as their byte sequences. -/
def readindexHeader (slide_version slide_id : List Nat) (s : ByteStream) :
    Except Unit (Bool × Nat × Nat × ByteStream) :=
  let rv := s.read slide_version.length
  let warn : Bool := rv.1 != slide_version
  let ru := rv.2.read slide_id.length
  if ru.1 = slide_id then
    let rh := readU32 ru.2
    let rn := readU32 rh.2
    .ok (warn, rh.1, rn.1, rn.2)
  else
    .error ()

/-- The first `for h in self.hierarchicals` loop of `__readindex`
(lines 126-129 and 135-138): one u32 LE pointer per dimension stub, read
sequentially from the root table, value 0 replaced by `None`. -/
def readPointers : Nat → ByteStream → List (Option Nat) × ByteStream
  | 0, s => ([], s)
  | n + 1, s =>
    let r := readU32 s
    let rs := readPointers n r.2
    ((if r.1 = 0 then none else some r.1) :: rs.1, rs.2)

/-- The pointer-table resolution of `__readindex` for one dimension group
(lines 125-133 for the hierarchical group, 134-142 for the other): seek to
the root, read one pointer per stub in enumeration order, then for every
stub whose pointer is present seek to it and run `loadpages` with the
matching record shape.  `fuel` bounds the chain traversals as in
`loadpages`. -/
def resolveGroup (ishierarchical : Bool) (fuel : Nat) (root : Nat)
    (dims : List Hierarchical) (fp : ByteStream) : List Hierarchical :=
  let ptrs := (readPointers dims.length (fp.seek root)).1
  (dims.zip ptrs).map fun dp =>
    { dp.1 with
      pointer := dp.2
      pages := match dp.2 with
        | none => dp.1.pages
        | some p => loadpages ishierarchical fuel (fp.seek p) }

/-! ## `MiraxFile.get_page_entry` (`miraxfile.py` lines 148-155) -/

/-- The zlib header bytes `b'x\x9C\xED'` tested at line 153. -/
def zlibMarker : List Nat := [0x78, 0x9C, 0xED]

/-- The payload-normalization step of `get_page_entry` (lines 153-155): if
the first three bytes equal `zlibMarker`, return the zlib-decompressed
bytes, else return the payload unchanged.  The zlib inflation itself is the
external `zlib.decompress` and is passed in as `inflate`. -/
def normalize (inflate : List Nat → List Nat) (pagebytes : List Nat) : List Nat :=
  if pagebytes.take 3 = zlibMarker then inflate pagebytes else pagebytes

/-- `MiraxFile.get_page_entry` on an already-opened data file `fileData`:
seek to `pe.offset`, read `pe.length` bytes (clamped at end-of-file exactly
as Python's `fp.read`), then normalize. -/
def get_page_entry (inflate : List Nat → List Nat) (fileData : List Nat)
    (pe : PageEntry) : List Nat :=
  normalize inflate ((fileData.drop pe.offset).take pe.length)

/-! ## `MiraxFile.decode_tiles` (`miraxfile.py` lines 157-172) -/

/-- `MiraxFile.decode_tiles(pagebytes)`: logs a format error (the `Bool` of
the result) when the length is not a multiple of 9, then iterates
`for start in range(0, len(pagebytes), 9)` — hence `ceil(len/9)` strides —
reading the flag byte at `start` and the two signed i32 LE slices
`pagebytes[start+1:start+5]` and `pagebytes[start+5:start+9]` (Python
slices clamp at the end of the buffer). -/
def decode_tiles (pagebytes : List Nat) : Bool × List (Int × Int × Bool) :=
  (decide (pagebytes.length % 9 ≠ 0),
    (List.range ((pagebytes.length + 8) / 9)).map fun i =>
      let start := 9 * i
      (fromBytesLESigned ((pagebytes.drop (start + 1)).take 4),
       fromBytesLESigned ((pagebytes.drop (start + 5)).take 4),
       pagebytes.getD start 0 == 1))

/-! ## `MiraxFile.get_tile_xy` (`miraxfile.py` lines 184-186) -/

/-- `MiraxFile.get_tile_xy(pe)` with `across = GENERAL.imagenumber_x`:
`x = tile_index % across`, `y = tile_index // across`. -/
def get_tile_xy (tile_index : Nat) (across : Nat) : Nat × Nat :=
  (tile_index % across, tile_index / across)

/-! ## Synthetic on-disk images of page chains (for the round-trip claims) -/

/-- All four fields fit in a u32, as they do on disk. -/
def ValidEntry (e : PageEntry) : Prop :=
  e.tile_index < 2 ^ 32 ∧ e.offset < 2 ^ 32 ∧ e.length < 2 ^ 32 ∧ e.file_number < 2 ^ 32

instance (e : PageEntry) : Decidable (ValidEntry e) := by
  unfold ValidEntry; infer_instance

/-- On-disk form of one hierarchical record: the four u32 LE fields. -/
def encodeHierEntry (e : PageEntry) : List Nat :=
  toBytesLE e.tile_index 4 ++ toBytesLE e.offset 4 ++
    toBytesLE e.length 4 ++ toBytesLE e.file_number 4

/-- On-disk form of one page: `n_entries`, `next_offset`, then the records. -/
def encodePage (next : Nat) (page : List PageEntry) : List Nat :=
  toBytesLE page.length 4 ++ toBytesLE next 4 ++ (page.map encodeHierEntry).flatten

/-- A well-formed page chain inside a file `data`: at `start` lies a page
header plus its records, whose `next_offset` is 0 for the last page and
otherwise a nonzero u32 pointing at the rest of the chain (pages may sit
anywhere in the file in any order). -/
def WellFormedChain (data : List Nat) : Nat → List (List PageEntry) → Prop
  | _, [] => False
  | start, [p] => ∃ rest, data.drop start = encodePage 0 p ++ rest
  | start, p :: q :: ps => ∃ next rest, next ≠ 0 ∧ next < 2 ^ 32 ∧
      data.drop start = encodePage next p ++ rest ∧
      WellFormedChain data next (q :: ps)

/-! ## Decoding lemmas -/

theorem readU32_step (s : ByteStream) {v : Nat} {rest : List Nat}
    (h : s.data.drop s.pos = toBytesLE v 4 ++ rest) (hv : v < 2 ^ 32) :
    readU32 s = (v, ⟨s.data, s.pos + 4⟩) ∧ s.data.drop (s.pos + 4) = rest := by
  refine ⟨readU32_exact s h hv, ?_⟩
  have hd := drop_pos_add s h
  rwa [toBytesLE_length] at hd

theorem encodeHierEntry_length (e : PageEntry) : (encodeHierEntry e).length = 16 := by
  simp [encodeHierEntry, toBytesLE_length]

theorem readHierEntry_exact (s : ByteStream) {e : PageEntry} {rest : List Nat}
    (h : s.data.drop s.pos = encodeHierEntry e ++ rest) (hv : ValidEntry e) :
    readHierEntry s = (e, ⟨s.data, s.pos + 16⟩) := by
  obtain ⟨h1, h2, h3, h4⟩ := hv
  simp only [encodeHierEntry, List.append_assoc] at h
  have s1 := readU32_step s h h1
  have s2 := readU32_step ⟨s.data, s.pos + 4⟩ s1.2 h2
  have s3 := readU32_step ⟨s.data, s.pos + 4 + 4⟩ s2.2 h3
  have s4 := readU32_step ⟨s.data, s.pos + 4 + 4 + 4⟩ s3.2 h4
  simp only [readHierEntry, s1.1, s2.1, s3.1, s4.1]

theorem readEntries_exact (page : List PageEntry) :
    ∀ (s : ByteStream) (rest : List Nat),
    (∀ e ∈ page, ValidEntry e) →
    s.data.drop s.pos = (page.map encodeHierEntry).flatten ++ rest →
    readEntries true page.length s = (page, ⟨s.data, s.pos + 16 * page.length⟩) := by
  induction page with
  | nil => intro s rest _ _; rfl
  | cons e page ih =>
    intro s rest hv h
    simp only [List.map_cons, List.flatten_cons, List.append_assoc] at h
    have he := readHierEntry_exact s h (hv e (by simp))
    have hd := drop_pos_add s h
    rw [encodeHierEntry_length] at hd
    have hrec := ih ⟨s.data, s.pos + 16⟩ rest
      (fun x hx => hv x (by simp [hx])) hd
    have step : readEntries true (page.length + 1) s =
        ((readHierEntry s).1 :: (readEntries true page.length (readHierEntry s).2).1,
         (readEntries true page.length (readHierEntry s).2).2) := rfl
    show readEntries true (page.length + 1) s =
      (e :: page, ⟨s.data, s.pos + 16 * (page.length + 1)⟩)
    rw [step]
    simp only [he, hrec]
    have h16 : s.pos + 16 + 16 * page.length = s.pos + 16 * (page.length + 1) := by ring
    rw [h16]

theorem encodePage_length (next : Nat) (page : List PageEntry) :
    (encodePage next page).length = 8 + 16 * page.length := by
  simp only [encodePage, List.length_append, toBytesLE_length, List.length_flatten,
    List.map_map]
  have hmap : (page.map (List.length ∘ encodeHierEntry)) = page.map fun _ => 16 := by
    apply List.map_congr_left
    intro e _
    simp [Function.comp, encodeHierEntry_length]
  have hsum : ∀ l : List PageEntry, (l.map fun _ => (16 : Nat)).sum = 16 * l.length := by
    intro l
    induction l with
    | nil => simp
    | cons a l ihl => simp only [List.map_cons, List.sum_cons, ihl, List.length_cons]; ring
  rw [hmap, hsum]

/-- One-step unfolding of `loadpages` at positive fuel (used to keep the
recursive occurrence folded while rewriting). -/
theorem loadpages_succ (ishierarchical : Bool) (fuel : Nat) (s : ByteStream) :
    loadpages ishierarchical (fuel + 1) s =
      (if (readU32 (readU32 s).2).1 = 0 then
        some [(readEntries ishierarchical (readU32 s).1 (readU32 (readU32 s).2).2).1]
      else
        match loadpages ishierarchical fuel
            ((readEntries ishierarchical (readU32 s).1
              (readU32 (readU32 s).2).2).2.seek (readU32 (readU32 s).2).1) with
        | none => none
        | some pages =>
          some ((readEntries ishierarchical (readU32 s).1
            (readU32 (readU32 s).2).2).1 :: pages)) := rfl

/-- Chain-traversal core: on any file holding a well-formed chain of pages,
`loadpages` terminates within one unit of fuel per page and returns exactly
those pages, in chain order. -/
theorem loadpages_chain_core (ps : List (List PageEntry)) :
    ∀ (start : Nat) (data : List Nat),
    (∀ p ∈ ps, ∀ e ∈ p, ValidEntry e) →
    (∀ p ∈ ps, p.length < 2 ^ 32) →
    WellFormedChain data start ps →
    loadpages true ps.length ⟨data, start⟩ = some ps := by
  induction ps with
  | nil => intro _ _ _ _ hwf; exact absurd hwf (by simp [WellFormedChain])
  | cons p ps ih =>
    intro start data hv hlen hwf
    cases ps with
    | nil =>
      obtain ⟨rest, hdata⟩ := hwf
      simp only [encodePage, List.append_assoc] at hdata
      have hplen : p.length < 2 ^ 32 := hlen p (by simp)
      have s1 := readU32_step ⟨data, start⟩ hdata hplen
      have s2 := readU32_step ⟨data, start + 4⟩ s1.2 (by norm_num)
      have s3 := readEntries_exact p ⟨data, start + 4 + 4⟩ rest
        (fun e he => hv p (by simp) e he) s2.2
      show loadpages true (0 + 1) ⟨data, start⟩ = some [p]
      rw [loadpages_succ]
      simp only [s1.1, s2.1, s3]
      rfl
    | cons q ps =>
      obtain ⟨next, rest, hnz, hlt, hdata, hwf2⟩ := hwf
      simp only [encodePage, List.append_assoc] at hdata
      have hplen : p.length < 2 ^ 32 := hlen p (by simp)
      have s1 := readU32_step ⟨data, start⟩ hdata hplen
      have s2 := readU32_step ⟨data, start + 4⟩ s1.2 hlt
      have s3 := readEntries_exact p ⟨data, start + 4 + 4⟩ _
        (fun e he => hv p (by simp) e he) s2.2
      have hrec := ih next data (fun x hx => hv x (by simp [hx]))
        (fun x hx => hlen x (by simp [hx])) hwf2
      show loadpages true ((q :: ps).length + 1) ⟨data, start⟩ = some (p :: q :: ps)
      rw [loadpages_succ]
      simp only [s1.1, s2.1, s3, ByteStream.seek]
      rw [if_neg hnz]
      rw [hrec]

/-- A `readU32` with at least 4 bytes available reads exactly 4. -/
theorem readU32_avail (s : ByteStream) (h : s.pos + 4 ≤ s.data.length) :
    readU32 s = (fromBytesLE ((s.data.drop s.pos).take 4), ⟨s.data, s.pos + 4⟩) := by
  have hl : ((s.data.drop s.pos).take 4).length = 4 := by
    rw [List.length_take, List.length_drop]; omega
  simp only [readU32, ByteStream.read]
  rw [hl]

/-- A `readU32` at or past end-of-data reads nothing and decodes 0, as
Python's `int.from_bytes(fp.read(4), "little")` does at end-of-file. -/
theorem readU32_exhausted (s : ByteStream) (h : s.data.length ≤ s.pos) :
    readU32 s = (0, s) := by
  have hnil : s.data.drop s.pos = [] := by
    rw [List.drop_eq_nil_iff]
    exact h
  simp only [readU32, ByteStream.read, hnil]
  rfl

/-- `loadpages` on an exhausted stream: both header reads return no bytes,
decode as 0, and the loop ends after appending a single empty page. -/
theorem loadpages_exhausted (ishierarchical : Bool) (fuel : Nat) (s : ByteStream)
    (h : s.data.length ≤ s.pos) :
    loadpages ishierarchical (fuel + 1) s = some [[]] := by
  have hr := readU32_exhausted s h
  rw [loadpages_succ]
  simp only [hr]
  rfl

/-- The `pointer == 0 ⇒ None` convention of `__readindex`. -/
def pointerOfBytes (v : Nat) : Option Nat :=
  if v = 0 then none else some v

/-- `readPointers` reads one consecutive 4-byte little-endian group per
stub, in order. -/
theorem readPointers_exact : ∀ (n : Nat) (s : ByteStream),
    s.pos + 4 * n ≤ s.data.length →
    (readPointers n s).1 = (List.range n).map (fun i =>
      pointerOfBytes (fromBytesLE ((s.data.drop (s.pos + 4 * i)).take 4))) ∧
    (readPointers n s).2 = ⟨s.data, s.pos + 4 * n⟩ := by
  intro n
  induction n with
  | zero => intro s _; exact ⟨rfl, rfl⟩
  | succ n ih =>
    intro s hle
    have hr := readU32_avail s (by omega)
    have ihh := ih ⟨s.data, s.pos + 4⟩ (by simp only; omega)
    simp only [readPointers, hr, ihh.1, ihh.2]
    constructor
    · rw [List.range_succ_eq_map, List.map_cons, List.map_map]
      congr 1
      apply List.map_congr_left
      intro i _
      simp only [Function.comp_apply, Nat.succ_eq_add_one]
      have harith : s.pos + 4 + 4 * i = s.pos + 4 * (i + 1) := by ring
      rw [harith]
    · simp only [ByteStream.mk.injEq]
      refine ⟨trivial, by ring⟩

/-- Exact decode of the non-hierarchical 20-byte record shape. -/
theorem readNonHierEntry_exact (s : ByteStream) {off len fn : Nat}
    {w1 w2 rest : List Nat} (hw1 : w1.length = 4) (hw2 : w2.length = 4)
    (h : s.data.drop s.pos =
      w1 ++ (w2 ++ (toBytesLE off 4 ++ (toBytesLE len 4 ++ (toBytesLE fn 4 ++ rest)))))
    (hoff : off < 2 ^ 32) (hlen : len < 2 ^ 32) (hfn : fn < 2 ^ 32) :
    readNonHierEntry s = (⟨0, off, len, fn⟩, ⟨s.data, s.pos + 20⟩) := by
  have e0 := s.read_exact h
  have d0 := drop_pos_add s h
  rw [hw1] at e0 d0
  have e1 := ByteStream.read_exact ⟨s.data, s.pos + 4⟩ d0
  have d1 := drop_pos_add ⟨s.data, s.pos + 4⟩ d0
  rw [hw2] at e1 d1
  have s1 := readU32_step ⟨s.data, s.pos + 4 + 4⟩ d1 hoff
  have s2 := readU32_step ⟨s.data, s.pos + 4 + 4 + 4⟩ s1.2 hlen
  have s3 := readU32_step ⟨s.data, s.pos + 4 + 4 + 4 + 4⟩ s2.2 hfn
  simp only [readNonHierEntry, e0, e1, s1.1, s2.1, s3.1]

/-- Arithmetic inverse of the grid mapping. -/
theorem grid_mod_div (a x y : Nat) (ha : 0 < a) (hx : x < a) :
    (y * a + x) % a = x ∧ (y * a + x) / a = y := by
  constructor
  · rw [Nat.add_comm, Nat.add_mul_mod_self_right, Nat.mod_eq_of_lt hx]
  · rw [Nat.add_comm, Nat.add_mul_div_right _ _ ha, Nat.div_eq_of_lt hx, Nat.zero_add]

/-! ## Claims -/

/-- **C1.** For every well-formed page chain (pages whose `next_offset`
values eventually reach 0), `loadpages` starting at the chain's first page
terminates (fuel one per page suffices) and returns the pages in on-disk
chain order: the result is exactly the chain, so each returned page has
exactly its `n_entries` records and the entry counts sum to the total
number of records written. -/
theorem loadpages_wellformed_chain (ps : List (List PageEntry)) (start : Nat)
    (data : List Nat)
    (hv : ∀ p ∈ ps, ∀ e ∈ p, ValidEntry e)
    (hlen : ∀ p ∈ ps, p.length < 2 ^ 32)
    (hwf : WellFormedChain data start ps) :
    loadpages true ps.length ⟨data, start⟩ = some ps ∧
    ((loadpages true ps.length ⟨data, start⟩).map
      (fun pages => (pages.map List.length).sum)) =
      some ((ps.map List.length).sum) := by
  have h := loadpages_chain_core ps start data hv hlen hwf
  exact ⟨h, by rw [h]; rfl⟩

/-- Witness for C1: the claim's concrete scenario — header bytes
`[02 00 00 00][00 00 00 00]` followed by two 16-byte hierarchical records
yield exactly one page with those two entries. -/
theorem loadpages_wellformed_chain_witness :
    loadpages true 1
      ⟨[2, 0, 0, 0, 0, 0, 0, 0,
        1, 0, 0, 0, 2, 0, 0, 0, 3, 0, 0, 0, 4, 0, 0, 0,
        5, 0, 0, 0, 6, 0, 0, 0, 7, 0, 0, 0, 8, 0, 0, 0], 0⟩ =
      some [[⟨1, 2, 3, 4⟩, ⟨5, 6, 7, 8⟩]] := by
  have h := (loadpages_wellformed_chain [[⟨1, 2, 3, 4⟩, ⟨5, 6, 7, 8⟩]] 0
    [2, 0, 0, 0, 0, 0, 0, 0,
     1, 0, 0, 0, 2, 0, 0, 0, 3, 0, 0, 0, 4, 0, 0, 0,
     5, 0, 0, 0, 6, 0, 0, 0, 7, 0, 0, 0, 8, 0, 0, 0]
    (by decide) (by decide) ⟨[], by decide⟩).1
  simpa using h

/-- **C9.** `loadpages` always returns a non-empty page list whenever it
returns at all: the traversal loop runs at least once, and a first header
of `n_entries = 0`, `next_offset = 0` yields exactly one page with zero
entries, never an empty page list. -/
theorem loadpages_result_nonempty :
    (∀ (ishierarchical : Bool) (fuel : Nat) (s : ByteStream)
      (pages : List (List PageEntry)),
      loadpages ishierarchical fuel s = some pages → pages ≠ []) ∧
    (∀ (fuel : Nat) (s : ByteStream) (rest : List Nat),
      s.data.drop s.pos = [0, 0, 0, 0, 0, 0, 0, 0] ++ rest →
      loadpages true (fuel + 1) s = some [[]]) := by
  constructor
  · intro ish fuel s pages h
    cases fuel with
    | zero => simp [loadpages] at h
    | succ fuel =>
      rw [loadpages_succ] at h
      by_cases h0 : (readU32 (readU32 s).2).1 = 0
      · rw [if_pos h0] at h
        injection h with h2
        subst h2
        simp
      · rw [if_neg h0] at h
        cases hrec : loadpages ish fuel
            ((readEntries ish (readU32 s).1 (readU32 (readU32 s).2).2).2.seek
              (readU32 (readU32 s).2).1) with
        | none => rw [hrec] at h; exact absurd h (by simp)
        | some ps =>
          rw [hrec] at h
          injection h with h2
          subst h2
          simp
  · intro fuel s rest h
    have h2 : s.data.drop s.pos = toBytesLE 0 4 ++ (toBytesLE 0 4 ++ rest) := h
    have s1 := readU32_step s h2 (by norm_num)
    have s2 := readU32_step ⟨s.data, s.pos + 4⟩ s1.2 (by norm_num)
    rw [loadpages_succ]
    simp only [s1.1, s2.1]
    rfl

/-- Witness for C9: the theorem applied to a concrete stream whose first
page header reads `n_entries = 0`, `next_offset = 0`. -/
theorem loadpages_result_nonempty_witness :
    loadpages true 1 ⟨[0, 0, 0, 0, 0, 0, 0, 0], 0⟩ = some [[]] ∧
    ([[]] : List (List PageEntry)) ≠ [] := by
  have h2 := loadpages_result_nonempty.2 0 ⟨[0, 0, 0, 0, 0, 0, 0, 0], 0⟩ []
    (by decide)
  exact ⟨h2, loadpages_result_nonempty.1 true 1 ⟨[0, 0, 0, 0, 0, 0, 0, 0], 0⟩ [[]] h2⟩

/-- **C3 counterexample.** The claim says a read demanding more bytes than
are available fails with a fatal error.  In the code no read can fail: on a
0-byte source `loadpages` (whose header reads demand 8 bytes) returns
normally with an empty page, and `get_page_entry` (demanding
`entry.length = 10` bytes) returns normally with empty data. -/
theorem short_read_no_error :
    loadpages true 1 ⟨[], 0⟩ = some [[]] ∧
    get_page_entry (fun b => b) [] ⟨0, 5, 10, 0⟩ = [] := by
  exact ⟨rfl, rfl⟩

/-- **C3 (amended).** A short read is not an error anywhere in the code:
`fp.read` clamps at end-of-data and the operations continue with the short
or empty data — `get_page_entry` returns the short payload (all the bytes
after `offset`, fewer than `entry.length` of them) and `loadpages` decodes
missing header bytes as 0, terminating with a single empty page. -/
theorem short_read_continues
    (inflate : List Nat → List Nat) (fileData : List Nat) (pe : PageEntry)
    (hshort : fileData.length < pe.offset + pe.length)
    (hnm : ((fileData.drop pe.offset).take pe.length).take 3 ≠ zlibMarker)
    (ishierarchical : Bool) (fuel : Nat) (s : ByteStream)
    (hs : s.data.length ≤ s.pos) :
    get_page_entry inflate fileData pe = (fileData.drop pe.offset).take pe.length ∧
    (get_page_entry inflate fileData pe).length = fileData.length - pe.offset ∧
    loadpages ishierarchical (fuel + 1) s = some [[]] := by
  have h1 : get_page_entry inflate fileData pe =
      (fileData.drop pe.offset).take pe.length := by
    unfold get_page_entry normalize
    rw [if_neg hnm]
  refine ⟨h1, ?_, loadpages_exhausted ishierarchical fuel s hs⟩
  rw [h1, List.length_take, List.length_drop]
  omega

/-- Witness for C3 (amended): a 2-byte file read with `entry.length = 5`
returns the 2 available bytes; `loadpages` on an exhausted stream returns
one empty page. -/
theorem short_read_continues_witness :
    get_page_entry (fun b => b) [9, 9] ⟨0, 0, 5, 0⟩ = [9, 9] ∧
    (get_page_entry (fun b => b) [9, 9] ⟨0, 0, 5, 0⟩).length = 2 ∧
    loadpages true 1 ⟨[7], 2⟩ = some [[]] := by
  have h := short_read_continues (fun b => b) [9, 9] ⟨0, 0, 5, 0⟩
    (by decide) (by decide) true 0 ⟨[7], 2⟩ (by decide)
  refine ⟨?_, ?_, h.2.2⟩
  · rw [h.1]; decide
  · rw [h.2.1]; decide

/-- **C4.** Reading the index header: a version-string mismatch is
non-fatal — the warning flag records it and parsing continues all the way
to the two root offsets — whereas an identifier mismatch is fatal and
aborts the open with an error (`assert` in the code, the spec's
IntegrityError). -/
theorem readindexHeader_version_nonfatal_id_fatal
    (v1 id1 vb ub rest : List Nat)
    (hvb : vb.length = v1.length) (hub : ub.length = id1.length)
    (hrest : 8 ≤ rest.length) :
    (ub = id1 →
      readindexHeader v1 id1 ⟨vb ++ ub ++ rest, 0⟩ =
        .ok (vb != v1, fromBytesLE (rest.take 4), fromBytesLE ((rest.drop 4).take 4),
          ⟨vb ++ ub ++ rest, vb.length + ub.length + 8⟩)) ∧
    (ub ≠ id1 → readindexHeader v1 id1 ⟨vb ++ ub ++ rest, 0⟩ = .error ()) := by
  have hdlen : (vb ++ ub ++ rest).length = vb.length + ub.length + rest.length := by
    simp [List.length_append]
    omega
  have hv0 : (⟨vb ++ ub ++ rest, 0⟩ : ByteStream).data.drop
      (⟨vb ++ ub ++ rest, 0⟩ : ByteStream).pos = vb ++ (ub ++ rest) := by
    simp
  have ev0 := ByteStream.read_exact ⟨vb ++ ub ++ rest, 0⟩ hv0
  have ev : (⟨vb ++ ub ++ rest, 0⟩ : ByteStream).read v1.length =
      (vb, ⟨vb ++ ub ++ rest, vb.length⟩) := by
    rw [← hvb]
    simpa using ev0
  have hdu : (vb ++ ub ++ rest).drop vb.length = ub ++ rest := by
    rw [List.append_assoc]
    exact List.drop_left vb _
  have eu0 := ByteStream.read_exact ⟨vb ++ ub ++ rest, vb.length⟩ hdu
  have eu : (⟨vb ++ ub ++ rest, vb.length⟩ : ByteStream).read id1.length =
      (ub, ⟨vb ++ ub ++ rest, vb.length + ub.length⟩) := by
    rw [← hub]
    exact eu0
  have hdr : (vb ++ ub ++ rest).drop (vb.length + ub.length) = rest := by
    rw [← List.drop_drop, hdu, List.drop_left]
  have er1 : readU32 ⟨vb ++ ub ++ rest, vb.length + ub.length⟩ =
      (fromBytesLE (rest.take 4), ⟨vb ++ ub ++ rest, vb.length + ub.length + 4⟩) := by
    have h := readU32_avail ⟨vb ++ ub ++ rest, vb.length + ub.length⟩
      (show vb.length + ub.length + 4 ≤ (vb ++ ub ++ rest).length by rw [hdlen]; omega)
    rw [hdr] at h
    exact h
  have hdr4 : (vb ++ ub ++ rest).drop (vb.length + ub.length + 4) = rest.drop 4 := by
    rw [← List.drop_drop, hdr]
  have er2 : readU32 ⟨vb ++ ub ++ rest, vb.length + ub.length + 4⟩ =
      (fromBytesLE ((rest.drop 4).take 4),
       ⟨vb ++ ub ++ rest, vb.length + ub.length + 4 + 4⟩) := by
    have h := readU32_avail ⟨vb ++ ub ++ rest, vb.length + ub.length + 4⟩
      (show vb.length + ub.length + 4 + 4 ≤ (vb ++ ub ++ rest).length by rw [hdlen]; omega)
    rw [hdr4] at h
    exact h
  constructor
  · intro hid
    simp only [readindexHeader, ev, eu, er1, er2]
    rw [if_pos hid]
  · intro hid
    simp only [readindexHeader, ev, eu]
    rw [if_neg hid]

/-- Witness for C4: version `"1"` vs `"2"` (byte 49 vs 50) only sets the
warning flag and the roots 5 and 9 are still read; a changed identifier
byte aborts with an error. -/
theorem readindexHeader_witness :
    readindexHeader [49] [65] ⟨[50, 65, 5, 0, 0, 0, 9, 0, 0, 0], 0⟩ =
      .ok (true, 5, 9, ⟨[50, 65, 5, 0, 0, 0, 9, 0, 0, 0], 10⟩) ∧
    readindexHeader [49] [65] ⟨[50, 66, 5, 0, 0, 0, 9, 0, 0, 0], 0⟩ =
      .error () := by
  constructor
  · have h := (readindexHeader_version_nonfatal_id_fatal [49] [65] [50] [65]
      [5, 0, 0, 0, 9, 0, 0, 0] rfl rfl (by decide)).1 rfl
    simpa using h
  · have h := (readindexHeader_version_nonfatal_id_fatal [49] [65] [50] [66]
      [5, 0, 0, 0, 9, 0, 0, 0] rfl rfl (by decide)).2 (by decide)
    simpa using h

/-- **C5.** The payload-normalization step returns its input unchanged
(hence is idempotent) whenever the first three bytes differ from the zlib
marker `0x78 0x9C 0xED`, and returns the zlib-decompressed bytes when they
equal it. -/
theorem normalize_marker (inflate : List Nat → List Nat) (b : List Nat) :
    (b.take 3 ≠ zlibMarker →
      normalize inflate b = b ∧
      normalize inflate (normalize inflate b) = normalize inflate b) ∧
    (b.take 3 = zlibMarker → normalize inflate b = inflate b) := by
  constructor
  · intro h
    have h1 : normalize inflate b = b := by
      unfold normalize
      rw [if_neg h]
    refine ⟨h1, ?_⟩
    rw [h1]
    exact h1
  · intro h
    unfold normalize
    rw [if_pos h]

/-- Witness for C5: a JPEG-header payload passes through unchanged; a
marker-headed payload is handed to the inflater. -/
theorem normalize_marker_witness :
    normalize (fun b => b) [255, 216, 255, 7] = [255, 216, 255, 7] ∧
    normalize (fun _ => [42]) [120, 156, 237, 1] = [42] := by
  constructor
  · exact ((normalize_marker (fun b => b) [255, 216, 255, 7]).1 (by decide)).1
  · exact (normalize_marker (fun _ => [42]) [120, 156, 237, 1]).2 (by decide)

/-- **C10.** A tile payload shorter than 3 bytes can never match the
3-byte compression marker (its 3-prefix is shorter than the marker), so
`get_page_entry` returns it unchanged, raising no error. -/
theorem get_page_entry_short_payload
    (inflate : List Nat → List Nat) (fileData : List Nat) (pe : PageEntry)
    (h : ((fileData.drop pe.offset).take pe.length).length < 3) :
    get_page_entry inflate fileData pe = (fileData.drop pe.offset).take pe.length := by
  unfold get_page_entry normalize
  rw [if_neg]
  intro hm
  have hlen := congrArg List.length hm
  rw [List.length_take] at hlen
  simp only [zlibMarker, List.length_cons, List.length_nil] at hlen
  omega

/-- Witness for C10: a 2-byte payload that is even a proper prefix of the
marker is returned unchanged. -/
theorem get_page_entry_short_payload_witness :
    get_page_entry (fun _ => [42]) [120, 156] ⟨0, 0, 2, 0⟩ = [120, 156] := by
  have h := get_page_entry_short_payload (fun _ => [42]) [120, 156] ⟨0, 0, 2, 0⟩
    (by decide)
  rw [h]
  decide

/-- **C6.** For every dimension group the resolver reads one u32 LE
pointer per stub from the root table in the stubs' enumeration order
(pointer `i` from bytes `root + 4*i .. root + 4*i + 3`), stores a value of
0 as an explicit absence (`none`), and — whenever the pointed-to chains
terminate within the given fuel — populates a dimension's pages if and
only if its pointer is present. -/
theorem resolveGroup_pointer_resolution
    (ishierarchical : Bool) (fuel : Nat) (root : Nat)
    (dims : List Hierarchical) (fp : ByteStream)
    (hroot : root + 4 * dims.length ≤ fp.data.length)
    (hstub : ∀ d ∈ dims, d.pages = none)
    (hterm : ∀ po ∈ (readPointers dims.length (fp.seek root)).1, po ≠ none →
      (loadpages ishierarchical fuel (fp.seek (po.getD 0))).isSome = true) :
    (resolveGroup ishierarchical fuel root dims fp).map (fun d => d.pointer) =
      (List.range dims.length).map (fun i =>
        pointerOfBytes (fromBytesLE ((fp.data.drop (root + 4 * i)).take 4))) ∧
    ∀ d ∈ resolveGroup ishierarchical fuel root dims fp,
      (d.pages.isSome ↔ d.pointer.isSome) := by
  have hp := readPointers_exact dims.length (fp.seek root)
    (show root + 4 * dims.length ≤ fp.data.length from hroot)
  have hplen : (readPointers dims.length (fp.seek root)).1.length = dims.length := by
    rw [hp.1, List.length_map, List.length_range]
  constructor
  · rw [resolveGroup, List.map_map]
    have hmap : ((fun d => d.pointer) ∘ fun dp =>
        ({ dp.1 with
           pointer := dp.2
           pages := match dp.2 with
             | none => dp.1.pages
             | some p => loadpages ishierarchical fuel (fp.seek p) } : Hierarchical)) =
        fun dp : Hierarchical × Option Nat => dp.2 := rfl
    rw [hmap]
    have hsnd := List.map_snd_zip dims (readPointers dims.length (fp.seek root)).1
      (by rw [hplen])
    rw [hsnd, hp.1]
    simp [ByteStream.seek]
  · intro d hd
    rw [resolveGroup, List.mem_map] at hd
    obtain ⟨dp, hdp, rfl⟩ := hd
    obtain ⟨a, po⟩ := dp
    have hmem := List.of_mem_zip hdp
    cases po with
    | none =>
      simp only [Option.isSome_none, hstub a hmem.1]
    | some p =>
      have ht := hterm (some p) hmem.2 (by simp)
      simp only [Option.isSome_some, iff_true]
      exact ht

/-- Witness for C6: the claim's concrete scenario — three stubs, pointer
table bytes `[00 00 00 00][32 00 00 00][64 00 00 00]` resolve to
`[None, 50, 100]`. -/
theorem resolveGroup_pointer_resolution_witness :
    (resolveGroup true 1 0
      [⟨"zoom", "0", none, none⟩, ⟨"zoom", "1", none, none⟩, ⟨"zoom", "2", none, none⟩]
      ⟨[0, 0, 0, 0, 50, 0, 0, 0, 100, 0, 0, 0], 0⟩).map (fun d => d.pointer) =
      [none, some 50, some 100] := by
  have h := (resolveGroup_pointer_resolution true 1 0
    [⟨"zoom", "0", none, none⟩, ⟨"zoom", "1", none, none⟩, ⟨"zoom", "2", none, none⟩]
    ⟨[0, 0, 0, 0, 50, 0, 0, 0, 100, 0, 0, 0], 0⟩
    (by decide) (by simp) (by decide)).1
  rw [h]
  decide

/-- **C7.** The record decoder: a hierarchical record is four u32 LE
fields read in the order `tile_index, offset, length, file_number`
(16 bytes — the cursor ends at 16), and a non-hierarchical record is two
skipped 4-byte reserved fields followed by `offset, length, file_number`
as u32 LE (20 bytes — the cursor ends at 20) with `tile_index` set to 0. -/
theorem record_decoder_shapes
    (ti off len fn : Nat) (w1 w2 rest rest2 : List Nat)
    (hti : ti < 2 ^ 32) (hoff : off < 2 ^ 32) (hlen : len < 2 ^ 32)
    (hfn : fn < 2 ^ 32) (hw1 : w1.length = 4) (hw2 : w2.length = 4) :
    readHierEntry
      ⟨toBytesLE ti 4 ++ toBytesLE off 4 ++ toBytesLE len 4 ++ toBytesLE fn 4 ++ rest, 0⟩ =
      (⟨ti, off, len, fn⟩,
       ⟨toBytesLE ti 4 ++ toBytesLE off 4 ++ toBytesLE len 4 ++ toBytesLE fn 4 ++ rest, 16⟩) ∧
    readNonHierEntry
      ⟨w1 ++ w2 ++ toBytesLE off 4 ++ toBytesLE len 4 ++ toBytesLE fn 4 ++ rest2, 0⟩ =
      (⟨0, off, len, fn⟩,
       ⟨w1 ++ w2 ++ toBytesLE off 4 ++ toBytesLE len 4 ++ toBytesLE fn 4 ++ rest2, 20⟩) := by
  constructor
  · have hx : (⟨toBytesLE ti 4 ++ toBytesLE off 4 ++ toBytesLE len 4 ++
        toBytesLE fn 4 ++ rest, 0⟩ : ByteStream).data.drop
        (⟨toBytesLE ti 4 ++ toBytesLE off 4 ++ toBytesLE len 4 ++
          toBytesLE fn 4 ++ rest, 0⟩ : ByteStream).pos =
        encodeHierEntry ⟨ti, off, len, fn⟩ ++ rest := by
      simp [encodeHierEntry, List.append_assoc]
    have h := readHierEntry_exact
      ⟨toBytesLE ti 4 ++ toBytesLE off 4 ++ toBytesLE len 4 ++ toBytesLE fn 4 ++ rest, 0⟩
      hx ⟨hti, hoff, hlen, hfn⟩
    simpa using h
  · have hx : (⟨w1 ++ w2 ++ toBytesLE off 4 ++ toBytesLE len 4 ++
        toBytesLE fn 4 ++ rest2, 0⟩ : ByteStream).data.drop
        (⟨w1 ++ w2 ++ toBytesLE off 4 ++ toBytesLE len 4 ++
          toBytesLE fn 4 ++ rest2, 0⟩ : ByteStream).pos =
        w1 ++ (w2 ++ (toBytesLE off 4 ++ (toBytesLE len 4 ++
          (toBytesLE fn 4 ++ rest2)))) := by
      simp [List.append_assoc]
    have h := readNonHierEntry_exact
      ⟨w1 ++ w2 ++ toBytesLE off 4 ++ toBytesLE len 4 ++ toBytesLE fn 4 ++ rest2, 0⟩
      hw1 hw2 hx hoff hlen hfn
    simpa using h

/-- Witness for C7: both record shapes decoded from concrete bytes; the
reserved pair `[1,2,3,4] [5,6,7,8]` of the 20-byte shape is discarded. -/
theorem record_decoder_shapes_witness :
    readHierEntry
      ⟨[9, 0, 0, 0, 10, 0, 0, 0, 11, 0, 0, 0, 12, 0, 0, 0], 0⟩ =
      (⟨9, 10, 11, 12⟩, ⟨[9, 0, 0, 0, 10, 0, 0, 0, 11, 0, 0, 0, 12, 0, 0, 0], 16⟩) ∧
    readNonHierEntry
      ⟨[1, 2, 3, 4, 5, 6, 7, 8, 10, 0, 0, 0, 11, 0, 0, 0, 12, 0, 0, 0], 0⟩ =
      (⟨0, 10, 11, 12⟩,
       ⟨[1, 2, 3, 4, 5, 6, 7, 8, 10, 0, 0, 0, 11, 0, 0, 0, 12, 0, 0, 0], 20⟩) := by
  have h := record_decoder_shapes 9 10 11 12 [1, 2, 3, 4] [5, 6, 7, 8] [] []
    (by decide) (by decide) (by decide) (by decide) (by decide) (by decide)
  constructor
  · have h1 := h.1
    simpa using h1
  · have h2 := h.2
    simpa using h2

/-- **C8.** The grid mapping returns `x = tile_index % across` and
`y = tile_index / across` (floor division); it is the exact inverse of
`index = y * across + x`, and a bijection from `[0, across * rows)` onto
`{0,…,across-1} × {0,…,rows-1}`. -/
theorem get_tile_xy_grid_bijection (across rows : Nat) (ha : 0 < across) :
    (∀ i, get_tile_xy i across = (i % across, i / across)) ∧
    (∀ x y, x < across → get_tile_xy (y * across + x) across = (x, y)) ∧
    (∀ i, (get_tile_xy i across).2 * across + (get_tile_xy i across).1 = i) ∧
    Set.BijOn (fun i => get_tile_xy i across)
      (Set.Ico 0 (across * rows)) (Set.Ico 0 across ×ˢ Set.Ico 0 rows) := by
  refine ⟨fun i => rfl, ?_, ?_, ?_, ?_, ?_⟩
  · intro x y hx
    have h := grid_mod_div across x y ha hx
    simp only [get_tile_xy, Prod.mk.injEq]
    exact ⟨h.1, h.2⟩
  · intro i
    simp only [get_tile_xy]
    rw [Nat.mul_comm]
    exact Nat.div_add_mod i across
  · intro i hi
    simp only [Set.mem_Ico, Set.mem_prod, get_tile_xy] at hi ⊢
    refine ⟨⟨Nat.zero_le _, Nat.mod_lt i ha⟩, Nat.zero_le _, ?_⟩
    rw [Nat.div_lt_iff_lt_mul ha, Nat.mul_comm]
    exact hi.2
  · intro i hi j hj hij
    simp only [get_tile_xy, Prod.mk.injEq] at hij
    have h1 := Nat.div_add_mod i across
    have h2 := Nat.div_add_mod j across
    rw [hij.1, hij.2] at h1
    omega
  · intro p hp
    obtain ⟨x, y⟩ := p
    simp only [Set.mem_prod, Set.mem_Ico] at hp
    refine ⟨y * across + x, ?_, ?_⟩
    · simp only [Set.mem_Ico]
      refine ⟨Nat.zero_le _, ?_⟩
      calc y * across + x < y * across + across := by omega
        _ = (y + 1) * across := by ring
        _ ≤ rows * across := Nat.mul_le_mul_right across (by omega)
        _ = across * rows := Nat.mul_comm rows across
    · have h := grid_mod_div across x y ha hp.1.2
      simp only [get_tile_xy, Prod.mk.injEq]
      exact ⟨h.1, h.2⟩

/-- Witness for C8: `to_grid(37, 10) = (7, 3)` and the inverse at
`(0, 1) ↦ 10`. -/
theorem get_tile_xy_grid_bijection_witness :
    get_tile_xy 37 10 = (7, 3) ∧ get_tile_xy 10 10 = (0, 1) := by
  have h := get_tile_xy_grid_bijection 10 4 (by decide)
  constructor
  · rw [h.1 37]
  · have h2 := h.2.1 0 1 (by decide)
    simpa using h2

/-- **C2 (code-bug evidence).** `decode_tiles` on a blob of length
`9*k + r` with `0 < r < 9` reports the format error but decodes
`k + 1` triples, not `k`: the trailing partial stride is decoded from
clamped (short or empty) slices.  On the empty blob and on exact multiples
of 9 it behaves as claimed: the 10-byte blob of zeros yields two triples
(the claim demands one), the empty blob yields none, and the 18-byte blob
encoding `(5, -3, true)` then `(0, 100, false)` yields exactly those two. -/
theorem decode_tiles_partial_stride :
    decode_tiles (List.replicate 10 0) = (true, [(0, 0, false), (0, 0, false)]) ∧
    decode_tiles [] = (false, []) ∧
    decode_tiles [1, 5, 0, 0, 0, 253, 255, 255, 255,
                  0, 0, 0, 0, 0, 100, 0, 0, 0] =
      (false, [(5, -3, true), (0, 100, false)]) := by
  refine ⟨by decide, by decide, by decide⟩

end Mirax
